import Mathlib

/-!
Verification development for the MQTT-text-Gcode-GRBL bridge
(`mqtt_to_grbl.py`).  The Python source is shallowly embedded below:
pure string/list processing becomes Lean functions on `List Char`,
Python floats become `ℚ`, the stateful emission loop of `textToGcode`
becomes an explicit fold over a state record, and the blocking serial
protocol of `send_gcode` becomes a function of the trace of read events.
-/

namespace MG

/-! ### Generic string helpers mirroring the Python primitives used -/

/-- ASCII whitespace recognised by Python `str.strip()`:
space, tab, newline, carriage return, vertical tab, form feed.
(Non-ASCII Unicode whitespace does not occur in the data handled.) -/
def isWS (c : Char) : Bool :=
  c = ' ' || c = '\t' || c = '\n' || c = '\r' || c = '\x0b' || c = '\x0c'

/-- Python `str.strip()`: drop leading and trailing whitespace. -/
def trimChars (cs : List Char) : List Char :=
  ((cs.dropWhile isWS).reverse.dropWhile isWS).reverse

/-- Python `str.split(sep)` with an explicit one-character separator:
splits on every occurrence, keeping empty segments
(`"".split(c) = [""]`, `"a\nb".split("\n") = ["a","b"]`). -/
def splitOnChar (sep : Char) : List Char → List (List Char)
  | [] => [[]]
  | c :: rest =>
      if c = sep then [] :: splitOnChar sep rest
      else
        match splitOnChar sep rest with
        | [] => [[c]]
        | l :: ls => (c :: l) :: ls

/-- Leading-match test: does `p` occur at the start of `s`
(Python `s.startswith(p)`)? -/
def startsWithCh : List Char → List Char → Bool
  | [], _ => true
  | _ :: _, [] => false
  | a :: as, b :: bs => a = b && startsWithCh as bs

/-! ### Decimal numbers: Python `float()` on the template grammar -/

/-- The ASCII digit character for `n ≤ 9`. -/
def digitChar (n : ℕ) : Char := Char.ofNat (48 + n)

/-- Value of a digit character. -/
def digitVal (c : Char) : ℕ := c.toNat - 48

/-- Read a digit string (most significant first) as a natural number. -/
def parseDigits (cs : List Char) : ℕ :=
  cs.foldl (fun a c => 10 * a + digitVal c) 0

/-- Python `float()` on an unsigned decimal literal `digits[.digits]`,
`.digits` or `digits.` — the grammar that occurs in template files and
in the serialized instruction format.  Exponent, `inf` and `nan` forms
never occur there and are not modelled; any other shape fails (Python
raises `ValueError`, which the caller turns into skipping the line). -/
def parseUnsigned (cs : List Char) : Option ℚ :=
  let ip := cs.takeWhile Char.isDigit
  let rest := cs.dropWhile Char.isDigit
  match rest with
  | [] => if ip.isEmpty then none else some (parseDigits ip : ℚ)
  | '.' :: fp =>
      if fp.all Char.isDigit && !(ip.isEmpty && fp.isEmpty) then
        some ((parseDigits ip : ℚ) + (parseDigits fp : ℚ) / (10 : ℚ) ^ fp.length)
      else none
  | _ => none

/-- Python `float()` with an optional sign. -/
def parseFloat (cs : List Char) : Option ℚ :=
  match cs with
  | [] => none
  | c :: rest =>
      if c = '+' then parseUnsigned rest
      else if c = '-' then (parseUnsigned rest).map (fun q => -q)
      else parseUnsigned (c :: rest)

/-! ### Instructions and letters (`Instr`, `Letter`) -/

/-- `Instr.Type`: `move` (G0) or `write` (G1). -/
inductive InstrType
  | move
  | write
deriving DecidableEq

/-- One primitive motion with glyph-local coordinates
(Python floats modelled as `ℚ`). -/
structure Instr where
  type : InstrType
  x : ℚ
  y : ℚ
deriving DecidableEq

/-- `Instr.__init__` on a single template line, with the raising paths
turned into `none`.  Mirrors the source checks in order: strip; skip
blank, `(`- and `%`-lines; split on single spaces; require a first
token `G0`/`G1` of length ≥ 2, an `X`-token and a `Y`-token of length
> 1; parse the two coordinates (a parse failure skips the line). -/
def Instr.ofLine (raw : List Char) : Option Instr :=
  let line := trimChars raw
  match line with
  | [] => none
  | c0 :: _ =>
    if c0 = '(' || c0 = '%' then none
    else
      match splitOnChar ' ' line with
      | ('G' :: t :: _) :: (x0 :: xs) :: (y0 :: ys) :: _ =>
          match (if t = '0' then some InstrType.move
                 else if t = '1' then some InstrType.write else none) with
          | none => none
          | some ty =>
              if x0 = 'X' && !xs.isEmpty && y0 = 'Y' && !ys.isEmpty then
                match parseFloat xs, parseFloat ys with
                | some x, some y => some ⟨ty, x, y⟩
                | _, _ => none
              else none
      | _ => none

/-- A glyph: ordered instructions plus a horizontal advance width. -/
structure Letter where
  instructions : List Instr
  width : ℚ
deriving DecidableEq

/-- `Letter.__init__` from a template file's content: split into lines,
strip each, skip blank lines, parse the rest (parse failures are
skipped); the width is `max(x) − min(x)` over the parsed instructions'
x-coordinates, or `0` when there are none. -/
def Letter.ofString (data : String) : Letter :=
  let instrs := (splitOnChar '\n' data.data).filterMap (fun l =>
    let t := trimChars l
    if t.isEmpty then none else Instr.ofLine t)
  let pointsOnX := instrs.map Instr.x
  { instructions := instrs
    width :=
      match pointsOnX with
      | [] => 0
      | p :: ps => ps.foldl max p - ps.foldl min p }

/-! ### Serialization: `%.2f` formatting and `Instr.__repr__` -/

/-- Decimal digits of a natural number, most significant first
(always nonempty; `0` renders as `"0"`). -/
def natDigitsChars (n : ℕ) : List Char :=
  if _h : n < 10 then [digitChar n]
  else natDigitsChars (n / 10) ++ [digitChar (n % 10)]
  decreasing_by exact Nat.div_lt_self (by omega) (by norm_num)

/-- Python `"%.2f" % q`: round to the nearest hundredth (`round` models
the rounding of the binary double to two decimals) and render with a
sign, the integer digits, a dot and exactly two fraction digits. -/
def fmt2 (q : ℚ) : List Char :=
  let n : ℤ := round (100 * q)
  (if n < 0 then ['-'] else []) ++
    natDigitsChars (n.natAbs / 100) ++
    '.' :: [digitChar (n.natAbs % 100 / 10), digitChar (n.natAbs % 100 % 10)]

/-- The hundredth nearest to `q` — the value that `"%.2f"` renders. -/
def round2 (q : ℚ) : ℚ := (round (100 * q) : ℚ) / 100

/-- The digit of `Instr.Type` used by `__repr__`
(`self.type.value[0]`, i.e. `0` or `1`). -/
def InstrType.digit : InstrType → Char
  | .move => '0'
  | .write => '1'

/-- `Instr.__repr__`: `"G%d X%.2f Y%.2f"`. -/
def Instr.reprChars (i : Instr) : List Char :=
  'G' :: i.type.digit :: ' ' :: 'X' :: fmt2 i.x ++ ' ' :: 'Y' :: fmt2 i.y

/-! ### The text-to-G-code compiler (`textToGcode`) -/

/-- One emitted G-code line of `textToGcode`, one constructor per
`output.append` site of the source (the string each renders to is in
`Cmd.render`). -/
inductive Cmd
  /-- `"M05"` — conditional pen-up in the line-break and empty-glyph
  branches, and the fixed `M05` after the line-break `M04`. -/
  | penUp
  /-- `"M05 F1500.0"` — pen-up before a G0 inside a glyph and after a
  glyph's last instruction. -/
  | penUpF
  /-- `"M03 S150"` — pen-down before a G1. -/
  | penDown
  /-- `"M04"` — line-break cue. -/
  | m04
  /-- `"G0 F1500 X_ Y_"` — rapid move to the start of a new line. -/
  | rapidNL (x y : ℚ)
  /-- `"G0 F1500.0 X_ Y_"` — rapid move for a `move` instruction. -/
  | rapid (x y : ℚ)
  /-- `"G1 F1500.0 X_ Y_"` — linear draw for a `write` instruction. -/
  | draw (x y : ℚ)
  /-- `"G0 F1000.0 X_ Y_"` — rapid advance to the next character's
  start position. -/
  | advance (x y : ℚ)
deriving DecidableEq

/-- The exact output string of each command. -/
def Cmd.render : Cmd → List Char
  | .penUp => "M05".data
  | .penUpF => "M05 F1500.0".data
  | .penDown => "M03 S150".data
  | .m04 => "M04".data
  | .rapidNL x y => "G0 F1500 X".data ++ fmt2 x ++ ' ' :: 'Y' :: fmt2 y
  | .rapid x y => "G0 F1500.0 X".data ++ fmt2 x ++ ' ' :: 'Y' :: fmt2 y
  | .draw x y => "G1 F1500.0 X".data ++ fmt2 x ++ ' ' :: 'Y' :: fmt2 y
  | .advance x y => "G0 F1000.0 X".data ++ fmt2 x ++ ' ' :: 'Y' :: fmt2 y

/-- The compiler's loop state: accumulated output, cursor, pen flag. -/
structure GState where
  out : List Cmd
  x : ℚ
  y : ℚ
  pen : Bool
deriving DecidableEq

/-- The glyph table: `letters` dictionary, looked up by character. -/
def Table := Char → Option Letter

/-- The body of `for instr in letter_data.instructions`: a `move` pens
up first if needed and emits a rapid move; a `write` pens down first if
needed and emits a linear draw; coordinates are cursor plus
glyph-local offset. -/
def instrStep (s : GState) (i : Instr) : GState :=
  match i.type with
  | .move =>
      { s with
        out := s.out ++ (if s.pen then [Cmd.penUpF] else []) ++
          [Cmd.rapid (s.x + i.x) (s.y + i.y)]
        pen := false }
  | .write =>
      { s with
        out := s.out ++ (if s.pen then [] else [Cmd.penDown]) ++
          [Cmd.draw (s.x + i.x) (s.y + i.y)]
        pen := true }

/-- The body of `for char in line_text`: unknown characters are skipped;
an instruction-less glyph advances the cursor (pening up if needed);
otherwise the pen flag is reset, the instructions run, a trailing
pen-up closes the glyph if needed, the cursor advances by
`width + padding` and a rapid advance move is emitted. -/
def charStep (letters : Table) (padding : ℚ) (s : GState) (c : Char) : GState :=
  match letters c with
  | none => s
  | some L =>
      if L.instructions.isEmpty then
        { s with
          x := s.x + L.width + padding
          out := s.out ++ (if s.pen then [Cmd.penUp] else [])
          pen := false }
      else
        let s1 := { s with pen := false }
        let s2 := L.instructions.foldl instrStep s1
        let s3 := { s2 with
          out := s2.out ++ (if s2.pen then [Cmd.penUpF] else [])
          pen := false }
        let s4 := { s3 with x := s3.x + L.width + padding }
        { s4 with out := s4.out ++ [Cmd.advance s4.x s4.y] }

/-- The `if not first_line` block: drop the cursor one line, pen up if
needed, rapid move to the new line's start, then the fixed `M04`/`M05`
line-break cue pair. -/
def lineBreakStep (lineSpacing : ℚ) (s : GState) : GState :=
  let y := s.y - lineSpacing
  { out := s.out ++ (if s.pen then [Cmd.penUp] else []) ++
      [Cmd.rapidNL 0 y, Cmd.m04, Cmd.penUp]
    x := 0
    y := y
    pen := false }

/-- `textToGcode(text, letters, line_length, line_spacing, padding)`:
split the text on newlines, run the first line from the origin with the
pen up, and every further line after a line-break step.  `lineLength`
is accepted and unused, as in the source. -/
def textToGcode (text : String) (letters : Table)
    (lineLength lineSpacing padding : ℚ) : List Cmd :=
  let _ := lineLength
  let s0 : GState := ⟨[], 0, 0, false⟩
  match splitOnChar '\n' text.data with
  | [] => s0.out
  | l :: ls =>
      (ls.foldl
        (fun s lt => lt.foldl (charStep letters padding) (lineBreakStep lineSpacing s))
        (l.foldl (charStep letters padding) s0)).out

/-! ### The device session driver (`send_gcode`, `init_grbl`) -/

/-- One `ser.readline()` observation inside `send_gcode`'s wait loop:
the bytes returned (`[]` when the read returned nothing) and the value
of `time.time() - start_time` at the timeout check that follows the
read. -/
structure ReadEv where
  line : List Char
  elapsed : ℚ
deriving DecidableEq

/-- The acknowledge token. -/
def okTok : List Char := "ok".data

/-- The error-response leading token. -/
def errTok : List Char := "error:".data

/-- The wait loop of `send_gcode` over the trace of read events,
carrying the response buffer.  A nonempty read is appended to the
buffer and its stripped decoding checked: exactly `"ok"` succeeds, a
line starting `"error:"` fails, otherwise (and after an empty read)
the elapsed time is checked against the timeout and the loop
continues.  An exhausted trace means no further data ever arrives, so
the timeout eventually fires on the buffer accumulated so far. -/
def sendLoop (timeout : ℚ) : List ReadEv → List Char → Bool × List Char
  | [], buf => (false, trimChars buf)
  | ev :: rest, buf =>
      if ev.line.isEmpty then
        if timeout < ev.elapsed then (false, trimChars buf)
        else sendLoop timeout rest buf
      else
        let buf1 := buf ++ ev.line
        let d := trimChars ev.line
        if d = okTok || startsWithCh errTok d then (d = okTok, d)
        else if timeout < ev.elapsed then (false, trimChars buf1)
        else sendLoop timeout rest buf1

/-- `send_gcode(command, timeout)`: with no open serial connection the
command is printed and the call reports success (`"Printed_to_console"`);
with an open connection the command is written and the wait loop runs
over the connection's read events. -/
def send_gcode (isOpen : Bool) (events : List ReadEv) (timeout : ℚ) :
    Bool × List Char :=
  if isOpen then sendLoop timeout events [] else (true, "Printed_to_console".data)

/-- The connection state after `init_grbl` returns: `bypass` (no port
configured, or the open failed and the driver degrades), `opened`
(initialization succeeded), or `closed` (a setup command failed and
the port was closed). -/
inductive ConnState
  | bypass
  | opened
  | closed
deriving DecidableEq

/-- The fixed `init_commands` list of `init_grbl`. -/
def init_commands : List String :=
  ["G21", "G90", "G17", "G94", "M05 S1000", "M03", "M05",
   "G10 P0 L20 X0", "G10 P0 L20 Y0", "G0 Z5", "G0 X0 Y0", "G0 Z0"]

/-- The `for cmd in init_commands` loop: send each command in order
(`ack k` is whether the `k`-th send acknowledges), stopping at the
first failure.  Returns whether all succeeded and the list of commands
actually sent. -/
def runInitCmds (ack : ℕ → Bool) : List String → ℕ → Bool × List String
  | [], _ => (true, [])
  | c :: cs, k =>
      if ack k then
        let r := runInitCmds ack cs (k + 1)
        (r.1, c :: r.2)
      else (false, [c])

/-- `init_grbl()`: no configured port or a failed open selects bypass
mode and still reports success; with an open port the setup sequence
runs, and a setup failure closes the port and reports failure.
Returns (reported result, connection state, commands sent). -/
def init_grbl (portConfigured openOk : Bool) (ack : ℕ → Bool) :
    Bool × ConnState × List String :=
  if !portConfigured then (true, ConnState.bypass, [])
  else if !openOk then (true, ConnState.bypass, [])
  else
    let r := runInitCmds ack init_commands 0
    if r.1 then (true, ConnState.opened, r.2)
    else (false, ConnState.closed, r.2)

/-! ### The message handler's dispatch loop (`on_message`) -/

/-- The post-message command sent when the payload lacks a trailing
newline. -/
def post_cmd : List Char := "G1 F500.0 X0.00 Y-8.00".data

/-- The `for line in gcode_lines` loop of `on_message`: strip each
line, skip empty ones, send the rest in order (`ack k` is whether the
`k`-th send acknowledges) and stop at the first failure.  Returns
whether every send succeeded and the list of lines sent. -/
def runProgram (ack : ℕ → Bool) : List (List Char) → ℕ → Bool × List (List Char)
  | [], _ => (true, [])
  | l :: ls, k =>
      let t := trimChars l
      if t.isEmpty then runProgram ack ls k
      else
        if ack k then
          let r := runProgram ack ls (k + 1)
          (r.1, t :: r.2)
        else (false, [t])

/-- The send phase of `on_message` for a decoded payload whose
compilation produced `gcode` (the rendered `textToGcode` output): an
empty program returns without sending; otherwise the program runs and,
on full success only, the post-message command is appended exactly when
the payload does not end in a newline. -/
def on_message_sends (payload : String) (gcode : List (List Char))
    (ack : ℕ → Bool) : List (List Char) :=
  if gcode.isEmpty then []
  else
    let r := runProgram ack gcode 0
    if r.1 then
      if payload.data.getLast? = some '\n' then r.2
      else r.2 ++ [post_cmd]
    else r.2

/-! ## Theorems -/

/-! ### C1: the single-glyph scenario -/

/-- The scenario glyph: two `write` (Draw) instructions at `(0,0)` and
`(5,10)`, width `5`. -/
def letterA : Letter := ⟨[⟨.write, 0, 0⟩, ⟨.write, 5, 10⟩], 5⟩

/-- A glyph table holding only the scenario glyph under `'A'`. -/
def tableA : Table := fun c => if c = 'A' then some letterA else none

/-- C1: compiling the one-character text `"A"` against a table whose
glyph `'A'` has two Draw instructions at `(0,0)` and `(5,10)` and width
`5` emits exactly pen-down, a linear draw to `(0,0)`, a linear draw to
`(5,10)`, pen-up, and a rapid advance to `x = 5 + padding` at
unchanged `y = 0`, for every padding (and line spacing/length). -/
theorem textToGcode_single_A (ll ls pad : ℚ) :
    textToGcode "A" tableA ll ls pad =
      [Cmd.penDown, Cmd.draw 0 0, Cmd.draw 5 10, Cmd.penUpF,
       Cmd.advance (5 + pad) 0] := by
  have h : splitOnChar '\n' "A".data = [['A']] := by decide
  simp [textToGcode, h, charStep, tableA, letterA, instrStep, zero_add]

/-! ### C2: the pen is up after every processed glyph -/

/-- C2: whenever a character is found in the glyph table, the compiler
leaves the pen up after emitting that glyph (the closing pen state of
every processed character is "up"). -/
theorem charStep_pen_up (letters : Table) (padding : ℚ) (s : GState)
    (c : Char) (L : Letter) (h : letters c = some L) :
    (charStep letters padding s c).pen = false := by
  unfold charStep
  rw [h]
  dsimp only
  split <;> rfl

/-- C2 witness: the scenario glyph, processed from the initial state. -/
theorem charStep_pen_up_witness :
    tableA 'A' = some letterA ∧
      (charStep tableA 1 ⟨[], 0, 0, false⟩ 'A').pen = false :=
  ⟨by decide, charStep_pen_up tableA 1 ⟨[], 0, 0, false⟩ 'A' letterA (by decide)⟩

/-! ### C7: initialization aborts on the first failed setup command -/

/-- The setup loop sends exactly the commands up to and including the
first unacknowledged one. -/
theorem runInitCmds_fail (ack : ℕ → Bool) :
    ∀ (cmds : List String) (start k : ℕ),
      (∀ j, j < k → ack (start + j) = true) → ack (start + k) = false →
      k < cmds.length →
      runInitCmds ack cmds start = (false, cmds.take (k + 1)) := by
  intro cmds
  induction cmds with
  | nil => intro start k _ _ hlen; simp at hlen
  | cons c cs ih =>
      intro start k h1 h2 hlen
      cases k with
      | zero =>
          have : ack start = false := by simpa using h2
          simp [runInitCmds, this]
      | succ k =>
          have hc : ack start = true := by simpa using h1 0 (Nat.succ_pos k)
          have h1' : ∀ j, j < k → ack (start + 1 + j) = true := by
            intro j hj
            have := h1 (j + 1) (by omega)
            simpa [Nat.add_assoc, Nat.add_comm 1 j] using this
          have h2' : ack (start + 1 + k) = false := by
            have : start + 1 + k = start + (k + 1) := by omega
            rw [this]; exact h2
          have hlen' : k < cs.length := by simpa using hlen
          simp [runInitCmds, hc, ih (start + 1) k h1' h2' hlen']

/-- C7: with a configured port and a successful open, if the `k`-th
setup command of the fixed sequence fails to acknowledge (all earlier
ones acknowledged), `init_grbl` sends no subsequent setup command (the
sent list is exactly the first `k + 1` commands), closes the
connection — it is not left in bypass — and reports failure. -/
theorem init_grbl_abort (ack : ℕ → Bool) (k : ℕ)
    (h1 : ∀ j, j < k → ack j = true) (h2 : ack k = false)
    (h3 : k < init_commands.length) :
    init_grbl true true ack = (false, ConnState.closed, init_commands.take (k + 1)) := by
  have hr : runInitCmds ack init_commands 0 = (false, init_commands.take (k + 1)) :=
    runInitCmds_fail ack init_commands 0 k (by simpa using h1) (by simpa using h2) h3
  simp [init_grbl, hr]

/-- C7 witness: the third setup command fails (the spec's scenario);
only the first three commands are sent, the state is closed, the
result is failure. -/
theorem init_grbl_abort_witness :
    (∀ j, j < 2 → (fun n => decide (n < 2)) j = true) ∧
      init_grbl true true (fun n => decide (n < 2)) =
        (false, ConnState.closed, ["G21", "G90", "G17"]) :=
  ⟨fun j hj => by simpa using hj,
   init_grbl_abort (fun n => decide (n < 2)) 2
     (fun j hj => by simpa using hj) (by simp) (by simp [init_commands])⟩

/-! ### C8: the trailing post-message command -/

/-- When every send acknowledges, the program loop succeeds and sends
exactly the stripped nonempty lines, in order. -/
theorem runProgram_all_ack (ack : ℕ → Bool) (hack : ∀ k, ack k = true) :
    ∀ (ls : List (List Char)) (k : ℕ),
      runProgram ack ls k =
        (true, (ls.map trimChars).filter (fun t => !t.isEmpty)) := by
  intro ls
  induction ls with
  | nil => intro k; simp [runProgram]
  | cons l ls ih =>
      intro k
      by_cases h : (trimChars l).isEmpty <;>
        simp [runProgram, h, hack k, ih]

/-- C8: when the compiled program is nonempty and every command of it
acknowledges (the Motion Program executes to completion successfully),
the handler sends the program's stripped nonempty lines followed by
exactly one trailing post-message command if the payload does not end
with a newline, and by nothing if it does. -/
theorem on_message_trailing (payload : String) (gcode : List (List Char))
    (ack : ℕ → Bool) (hg : gcode ≠ []) (hack : ∀ k, ack k = true) :
    on_message_sends payload gcode ack =
      (gcode.map trimChars).filter (fun t => !t.isEmpty) ++
        (if payload.data.getLast? = some '\n' then [] else [post_cmd]) := by
  rw [on_message_sends]
  rw [if_neg (by simpa [List.isEmpty_iff] using hg)]
  rw [runProgram_all_ack ack hack gcode 0]
  by_cases h : payload.data.getLast? = some '\n' <;> simp [h]

/-- C8 witness: a two-line program, all acknowledged; the payload
`"hi"` does not end in a newline, so exactly one post-message command
trails; the payload `"hi\n"` ends in one, so none does. -/
theorem on_message_trailing_witness :
    ((["G1 X0".data] : List (List Char)) ≠ [] ∧ (∀ k : ℕ, (fun _ => true) k = true)) ∧
      on_message_sends "hi" ["G1 X0".data] (fun _ => true) =
        ["G1 X0".data, post_cmd] ∧
      on_message_sends "hi\n" ["G1 X0".data] (fun _ => true) = ["G1 X0".data] := by
  refine ⟨⟨by decide, fun _ => rfl⟩, ?_, ?_⟩
  · have := on_message_trailing "hi" ["G1 X0".data] (fun _ => true)
      (by decide) (fun _ => rfl)
    simpa using this.trans (by decide)
  · have := on_message_trailing "hi\n" ["G1 X0".data] (fun _ => true)
      (by decide) (fun _ => rfl)
    simpa using this.trans (by decide)

/-! ### C6: the send/acknowledge protocol -/

/-- A read event that neither terminates the wait (the read was empty,
or its stripped line is neither exactly `"ok"` nor `"error:"`-led) nor
trips the timeout. -/
def nonTerminalWithin (timeout : ℚ) (e : ReadEv) : Prop :=
  (e.line = [] ∨
    (trimChars e.line ≠ okTok ∧ startsWithCh errTok (trimChars e.line) = false)) ∧
  e.elapsed ≤ timeout

instance (timeout : ℚ) (e : ReadEv) : Decidable (nonTerminalWithin timeout e) := by
  unfold nonTerminalWithin; infer_instance

/-- The wait loop skips over non-terminal in-time events, accumulating
their bytes in the buffer. -/
theorem sendLoop_skip (timeout : ℚ) :
    ∀ (pre evs : List ReadEv) (buf : List Char),
      (∀ e ∈ pre, nonTerminalWithin timeout e) →
      sendLoop timeout (pre ++ evs) buf =
        sendLoop timeout evs (buf ++ (pre.map ReadEv.line).flatten) := by
  intro pre
  induction pre with
  | nil => intro evs buf _; simp
  | cons e pre ih =>
      intro evs buf hpre
      have he := hpre e (by simp)
      have hrest : ∀ x ∈ pre, nonTerminalWithin timeout x :=
        fun x hx => hpre x (by simp [hx])
      have hnt : ¬ timeout < e.elapsed := not_lt.mpr he.2
      by_cases hemp : e.line.isEmpty
      · have hl : e.line = [] := by simpa using hemp
        simp [sendLoop, hemp, hnt, ih evs buf hrest, hl]
      · have hl : ¬ e.line = [] := by simpa using hemp
        rcases he.1 with hcase | ⟨hok, herr⟩
        · exact absurd hcase hl
        · simp [sendLoop, hemp, hok, herr, hnt,
            ih evs (buf ++ e.line) hrest, List.append_assoc]

/-- C6: behaviour of `send_gcode` for every command wait.  With no open
connection it immediately reports success (bypass).  With an open
connection, after any run of non-terminal in-time reads: a read whose
stripped line is exactly `"ok"` returns `(true, that line)`; a read
whose stripped line starts with `"error:"` returns `(false, that
line)`; and a non-terminal read past the timeout returns `(false, the
stripped accumulated partial buffer)`. -/
theorem send_gcode_spec (timeout : ℚ) (pre rest : List ReadEv) (ev : ReadEv)
    (hpre : ∀ e ∈ pre, nonTerminalWithin timeout e) :
    (∀ (evs : List ReadEv) (t : ℚ),
        send_gcode false evs t = (true, "Printed_to_console".data)) ∧
    (ev.line ≠ [] → trimChars ev.line = okTok →
        send_gcode true (pre ++ ev :: rest) timeout = (true, okTok)) ∧
    (ev.line ≠ [] → startsWithCh errTok (trimChars ev.line) = true →
        trimChars ev.line ≠ okTok →
        send_gcode true (pre ++ ev :: rest) timeout = (false, trimChars ev.line)) ∧
    ((ev.line = [] ∨
        (trimChars ev.line ≠ okTok ∧ startsWithCh errTok (trimChars ev.line) = false)) →
      timeout < ev.elapsed →
        send_gcode true (pre ++ ev :: rest) timeout =
          (false, trimChars ((pre.map ReadEv.line).flatten ++ ev.line))) := by
  have hskip := sendLoop_skip timeout pre (ev :: rest) [] hpre
  refine ⟨fun evs t => rfl, ?_, ?_, ?_⟩
  · intro hne hok
    have hb : ev.line.isEmpty = false := by simpa using hne
    show sendLoop timeout (pre ++ ev :: rest) [] = (true, okTok)
    rw [hskip]
    simp [sendLoop, hb, hok]
  · intro hne herr hok
    have hb : ev.line.isEmpty = false := by simpa using hne
    show sendLoop timeout (pre ++ ev :: rest) [] = (false, trimChars ev.line)
    rw [hskip]
    simp [sendLoop, hb, herr, hok]
  · intro hcase htime
    show sendLoop timeout (pre ++ ev :: rest) [] =
      (false, trimChars ((pre.map ReadEv.line).flatten ++ ev.line))
    rw [hskip]
    rcases hcase with hemp | ⟨hok, herr⟩
    · simp [sendLoop, hemp, htime]
    · by_cases hb : ev.line.isEmpty
      · have hl : ev.line = [] := by simpa using hb
        simp [sendLoop, hb, htime, hl]
      · simp [sendLoop, hb, hok, herr, htime]

/-- C6 witness: a closed connection reports success; an empty in-time
read followed by an `"ok\n"` read acknowledges; an `"error:9\n"` read
fails with the error line; a garbled read past the timeout fails with
the stripped partial buffer. -/
theorem send_gcode_spec_witness :
    (∀ e ∈ ([⟨[], 1⟩] : List ReadEv), nonTerminalWithin 2 e) ∧
      send_gcode false [] 2 = (true, "Printed_to_console".data) ∧
      send_gcode true ([⟨[], 1⟩] ++ (⟨"ok\n".data, 3/2⟩ : ReadEv) :: []) 2 =
        (true, okTok) ∧
      send_gcode true (([] : List ReadEv) ++ (⟨"error:9\n".data, 1⟩ : ReadEv) :: []) 2 =
        (false, trimChars "error:9\n".data) ∧
      send_gcode true ([⟨[], 1⟩] ++ (⟨"abc".data, 3⟩ : ReadEv) :: []) 2 =
        (false, trimChars ((([⟨[], 1⟩] : List ReadEv).map ReadEv.line).flatten ++ "abc".data)) := by
  refine ⟨by decide, ?_, ?_, ?_, ?_⟩
  · exact (send_gcode_spec 2 [⟨[], 1⟩] [] ⟨"ok\n".data, 3/2⟩ (by decide)).1 [] 2
  · exact (send_gcode_spec 2 [⟨[], 1⟩] [] ⟨"ok\n".data, 3/2⟩ (by decide)).2.1
      (by decide) (by decide)
  · exact (send_gcode_spec 2 [] [] ⟨"error:9\n".data, 1⟩ (by decide)).2.2.1
      (by decide) (by decide) (by decide)
  · exact (send_gcode_spec 2 [⟨[], 1⟩] [] ⟨"abc".data, 3⟩ (by decide)).2.2.2
      (by decide) (by decide)

/-! ### C4: counting the rapid advance commands -/

/-- Recognizer of the rapid advance-to-next-character command
(`"G0 F1000.0 …"`). -/
def isAdv : Cmd → Bool
  | .advance _ _ => true
  | _ => false

/-- A character that resolves in the glyph table to a glyph with at
least one instruction. -/
def resolvedNonEmpty (letters : Table) (c : Char) : Bool :=
  match letters c with
  | some L => !L.instructions.isEmpty
  | none => false

/-- Splitting on a character absent from the list is the identity. -/
theorem splitOnChar_eq_single (sep : Char) :
    ∀ cs : List Char, sep ∉ cs → splitOnChar sep cs = [cs] := by
  intro cs
  induction cs with
  | nil => intro _; rfl
  | cons c rest ih =>
      intro h
      have hc : ¬ c = sep := fun hh => h (by simp [hh])
      have hrest : sep ∉ rest := fun hh => h (by simp [hh])
      simp [splitOnChar, hc, ih hrest]

/-- A glyph's instruction loop emits no advance command. -/
theorem foldl_instrStep_countAdv :
    ∀ (l : List Instr) (s : GState),
      ((l.foldl instrStep s).out).countP isAdv = s.out.countP isAdv := by
  intro l
  induction l with
  | nil => intro s; rfl
  | cons i l ih =>
      intro s
      rw [List.foldl_cons, ih]
      obtain ⟨ty, x, y⟩ := i
      cases ty <;> by_cases hp : s.pen <;>
        simp [instrStep, hp, List.countP_append, isAdv]

/-- Each processed character adds one advance command exactly when its
glyph resolves and has instructions. -/
theorem charStep_countAdv (letters : Table) (pad : ℚ) (s : GState) (c : Char) :
    ((charStep letters pad s c).out).countP isAdv =
      s.out.countP isAdv + (if resolvedNonEmpty letters c then 1 else 0) := by
  unfold charStep resolvedNonEmpty
  cases hl : letters c with
  | none => simp
  | some L =>
      dsimp only
      split
      · next hinstr =>
          by_cases hp : s.pen <;> simp [hinstr, hp, List.countP_append, isAdv]
      · next hinstr =>
          by_cases hp2 : (List.foldl instrStep { s with pen := false } L.instructions).pen <;>
            simp [hp2, List.countP_append, isAdv, foldl_instrStep_countAdv, hinstr]

/-- A line of characters adds one advance command per resolved
nonempty-glyph character. -/
theorem foldl_charStep_countAdv (letters : Table) (pad : ℚ) :
    ∀ (l : List Char) (s : GState),
      ((l.foldl (charStep letters pad) s).out).countP isAdv =
        s.out.countP isAdv + l.countP (resolvedNonEmpty letters) := by
  intro l
  induction l with
  | nil => intro s; simp
  | cons c l ih =>
      intro s
      rw [List.foldl_cons, ih, charStep_countAdv, List.countP_cons]
      split <;> omega

/-- C4 counterexample table: only the space glyph (no instructions,
width 4). -/
def tableSpace : Table := fun c => if c = ' ' then some ⟨[], 4⟩ else none

/-- C4 counterexample: compiling the one-character text `" "` (a space,
resolved by the table) emits no advance command at all, so the number
of advance commands (0) differs from the number of characters found in
the table (1). -/
theorem textToGcode_advance_count_ce :
    ¬ ((textToGcode " " tableSpace 10 8 1).countP isAdv =
        " ".data.countP (fun c => (tableSpace c).isSome)) := by decide

/-- C4 (amended): for a text with no line break, the number of rapid
advance commands equals the number of characters resolved against the
table to a glyph with a nonempty instruction list (pure-advance glyphs
such as space emit no advance command). -/
theorem textToGcode_advance_count (text : String) (letters : Table)
    (ll ls pad : ℚ) (h : '\n' ∉ text.data) :
    (textToGcode text letters ll ls pad).countP isAdv =
      text.data.countP (resolvedNonEmpty letters) := by
  unfold textToGcode
  rw [splitOnChar_eq_single '\n' text.data h]
  simp [foldl_charStep_countAdv]

/-- C4 witness: `"A A"` against the table holding only `'A'`: the space
is unresolved, the two `'A'`s each carry instructions. -/
theorem textToGcode_advance_count_witness :
    ('\n' ∉ "A A".data) ∧
      (textToGcode "A A" tableA 10 8 1).countP isAdv =
        "A A".data.countP (resolvedNonEmpty tableA) :=
  ⟨by decide, textToGcode_advance_count "A A" tableA 10 8 1 (by decide)⟩

/-! ### C10: the conditional pen-ups at boundaries are dead code -/

/-- `charStep` with the conditional pen-up of the empty-glyph branch
removed (it can only fire with the pen down at a character boundary). -/
def charStepLive (letters : Table) (padding : ℚ) (s : GState) (c : Char) : GState :=
  match letters c with
  | none => s
  | some L =>
      if L.instructions.isEmpty then
        { s with
          x := s.x + L.width + padding
          pen := false }
      else
        let s1 := { s with pen := false }
        let s2 := L.instructions.foldl instrStep s1
        let s3 := { s2 with
          out := s2.out ++ (if s2.pen then [Cmd.penUpF] else [])
          pen := false }
        let s4 := { s3 with x := s3.x + L.width + padding }
        { s4 with out := s4.out ++ [Cmd.advance s4.x s4.y] }

/-- `lineBreakStep` with the conditional pen-up removed. -/
def lineBreakStepLive (lineSpacing : ℚ) (s : GState) : GState :=
  let y := s.y - lineSpacing
  { out := s.out ++ [Cmd.rapidNL 0 y, Cmd.m04, Cmd.penUp]
    x := 0
    y := y
    pen := false }

/-- `textToGcode` rebuilt from the live-only steps. -/
def textToGcodeLive (text : String) (letters : Table)
    (lineLength lineSpacing padding : ℚ) : List Cmd :=
  let _ := lineLength
  let s0 : GState := ⟨[], 0, 0, false⟩
  match splitOnChar '\n' text.data with
  | [] => s0.out
  | l :: ls =>
      (ls.foldl
        (fun s lt => lt.foldl (charStepLive letters padding) (lineBreakStepLive lineSpacing s))
        (l.foldl (charStepLive letters padding) s0)).out

/-- Processing a found or unknown character never leaves the pen down
when it was up before. -/
theorem charStep_pen_false (letters : Table) (pad : ℚ) (s : GState) (c : Char)
    (h : s.pen = false) : (charStep letters pad s c).pen = false := by
  unfold charStep
  cases hl : letters c
  · exact h
  · dsimp only; split <;> rfl

/-- With the pen up, `charStep` agrees with its live-only variant. -/
theorem charStep_eq_live (letters : Table) (pad : ℚ) (s : GState) (c : Char)
    (h : s.pen = false) :
    charStep letters pad s c = charStepLive letters pad s c := by
  unfold charStep charStepLive
  cases hl : letters c
  · rfl
  · dsimp only
    split
    · simp [h]
    · rfl

/-- A whole line of characters agrees with the live-only variant and
preserves the pen-up boundary invariant. -/
theorem foldl_charStep_eq_live (letters : Table) (pad : ℚ) :
    ∀ (l : List Char) (s : GState), s.pen = false →
      l.foldl (charStep letters pad) s = l.foldl (charStepLive letters pad) s ∧
        (l.foldl (charStep letters pad) s).pen = false := by
  intro l
  induction l with
  | nil => intro s h; exact ⟨rfl, h⟩
  | cons c l ih =>
      intro s h
      have hstep := charStep_eq_live letters pad s c h
      have hpen := charStep_pen_false letters pad s c h
      have := ih (charStep letters pad s c) hpen
      refine ⟨?_, ?_⟩
      · rw [List.foldl_cons, List.foldl_cons, ← hstep, this.1]
      · rw [List.foldl_cons]; exact this.2

/-- C10: at every character and line boundary the pen flag is false, so
the conditional pen-up emissions in the empty-glyph branch and in the
line-break branch never fire: the compiler emits exactly what the
variant with those two conditionals deleted emits, for every text and
glyph table. -/
theorem textToGcode_eq_live (text : String) (letters : Table)
    (ll ls pad : ℚ) :
    textToGcode text letters ll ls pad = textToGcodeLive text letters ll ls pad := by
  unfold textToGcode textToGcodeLive
  cases hsplit : splitOnChar '\n' text.data with
  | nil => rfl
  | cons l lns =>
      dsimp only
      have h0 := foldl_charStep_eq_live letters pad l ⟨[], 0, 0, false⟩ rfl
      rw [← h0.1]
      have : ∀ (lines : List (List Char)) (s : GState), s.pen = false →
          lines.foldl
              (fun s lt => lt.foldl (charStep letters pad) (lineBreakStep ls s)) s =
            lines.foldl
              (fun s lt => lt.foldl (charStepLive letters pad) (lineBreakStepLive ls s)) s ∧
            (lines.foldl
              (fun s lt => lt.foldl (charStep letters pad) (lineBreakStep ls s)) s).pen = false := by
        intro lines
        induction lines with
        | nil => intro s h; exact ⟨rfl, h⟩
        | cons lt lns ih =>
            intro s h
            have hbe : lineBreakStep ls s = lineBreakStepLive ls s := by
              unfold lineBreakStep lineBreakStepLive
              simp [h]
            have hbp : (lineBreakStep ls s).pen = false := rfl
            have hline := foldl_charStep_eq_live letters pad lt (lineBreakStep ls s) hbp
            have := ih (lt.foldl (charStep letters pad) (lineBreakStep ls s)) hline.2
            refine ⟨?_, ?_⟩
            · rw [List.foldl_cons, List.foldl_cons, this.1, hline.1, hbe]
            · rw [List.foldl_cons]; exact this.2
      rw [(this lns (l.foldl (charStep letters pad) ⟨[], 0, 0, false⟩) h0.2).1]

/-! ### C3: pen commands strictly alternate -/

/-- Classify a command as pen-down (`M03 S150`, and the `M04` half of
the line-break cue pair), pen-up (`M05`, `M05 F1500.0`), or a motion
command (`none`). -/
def penClass : Cmd → Option Bool
  | .penUp => some false
  | .penUpF => some false
  | .penDown => some true
  | .m04 => some true
  | _ => none

/-- The subsequence of pen commands of an output
(`true` = pen-down, `false` = pen-up). -/
def pens (l : List Cmd) : List Bool := l.filterMap penClass

/-- The emission invariant: the pen commands emitted so far strictly
alternate, and the last one is a pen-down exactly when the tracked pen
flag is down. -/
def PenInv (out : List Cmd) (pen : Bool) : Prop :=
  List.Chain' (fun a b => a ≠ b) (pens out) ∧
    ((pens out).getLast? = some true ↔ pen = true)

theorem pens_append (l m : List Cmd) : pens (l ++ m) = pens l ++ pens m :=
  List.filterMap_append l m penClass

theorem penInv_nil : PenInv [] false := by
  constructor
  · exact List.chain'_nil
  · simp [pens]

/-- Appending motion commands only preserves the invariant. -/
theorem penInv_push_none (out : List Cmd) (pen : Bool) (h : PenInv out pen)
    (block : List Cmd) (hb : pens block = []) : PenInv (out ++ block) pen := by
  unfold PenInv at h ⊢
  rw [pens_append, hb, List.append_nil]
  exact h

/-- Appending a block holding exactly one pen command of the class
opposite to the current pen flag preserves the invariant and flips the
flag. -/
theorem penInv_push_one (out : List Cmd) (pen : Bool) (h : PenInv out pen)
    (block : List Cmd) (b : Bool) (hb : pens block = [b])
    (hcompat : pen = !b) : PenInv (out ++ block) b := by
  unfold PenInv at h ⊢
  rw [pens_append, hb]
  constructor
  · rw [List.chain'_append]
    refine ⟨h.1, List.chain'_singleton b, ?_⟩
    intro x hx y hy
    simp only [List.head?_cons, Option.mem_def, Option.some.injEq] at hy
    subst hy
    cases b
    · have hlast : (pens out).getLast? = some true := h.2.mpr (by simpa using hcompat)
      rw [hlast] at hx
      simp only [Option.mem_def, Option.some.injEq] at hx
      subst hx
      simp
    · intro hxy
      subst hxy
      have : (pens out).getLast? = some true := hx
      have := h.2.mp this
      rw [hcompat] at this
      simp at this
  · rw [List.getLast?_concat]
    cases b <;> simp

/-- The conditional pen-up (either `M05` flavour) closing a draw run
preserves the invariant and leaves the flag up. -/
theorem penInv_close (out : List Cmd) (pen : Bool) (cmd : Cmd)
    (h : PenInv out pen) (hc : penClass cmd = some false) :
    PenInv (out ++ (if pen then [cmd] else [])) false := by
  cases hp : pen
  · subst hp
    exact penInv_push_none out false h _ rfl
  · subst hp
    simp only [if_pos rfl]
    exact penInv_push_one out true h [cmd] false (by simp [pens, hc]) rfl

/-- The fixed `M04`/`M05` line-break cue pair, emitted with the pen up,
preserves the invariant. -/
theorem penInv_push_downUp (out : List Cmd) (h : PenInv out false)
    (block : List Cmd) (hb : pens block = [true, false]) :
    PenInv (out ++ block) false := by
  unfold PenInv at h ⊢
  rw [pens_append, hb]
  constructor
  · rw [List.chain'_append]
    refine ⟨h.1, by simp, ?_⟩
    intro x hx y hy
    simp only [List.head?_cons, Option.mem_def, Option.some.injEq] at hy
    subst hy
    intro hxy
    subst hxy
    have := h.2.mp hx
    simp at this
  · rw [show pens out ++ [true, false] = (pens out ++ [true]) ++ [false] by simp,
      List.getLast?_concat]
    simp

/-- Each instruction's emission preserves the invariant. -/
theorem instrStep_penInv (s : GState) (i : Instr) (h : PenInv s.out s.pen) :
    PenInv (instrStep s i).out (instrStep s i).pen := by
  obtain ⟨ty, x, y⟩ := i
  cases ty
  · show PenInv (s.out ++ (if s.pen then [Cmd.penUpF] else []) ++
      [Cmd.rapid (s.x + x) (s.y + y)]) false
    exact penInv_push_none _ false (penInv_close s.out s.pen Cmd.penUpF h rfl)
      [Cmd.rapid (s.x + x) (s.y + y)] rfl
  · show PenInv (s.out ++ (if s.pen then [] else [Cmd.penDown]) ++
      [Cmd.draw (s.x + x) (s.y + y)]) true
    cases hp : s.pen
    · rw [hp] at h
      exact penInv_push_none _ true
        (penInv_push_one s.out false h (if false then [] else [Cmd.penDown]) true rfl rfl)
        [Cmd.draw (s.x + x) (s.y + y)] rfl
    · rw [hp] at h
      exact penInv_push_none _ true
        (penInv_push_none s.out true h (if true then [] else [Cmd.penDown]) rfl)
        [Cmd.draw (s.x + x) (s.y + y)] rfl

/-- A glyph's instruction loop preserves the invariant. -/
theorem foldl_instrStep_penInv :
    ∀ (l : List Instr) (s : GState), PenInv s.out s.pen →
      PenInv ((l.foldl instrStep s).out) ((l.foldl instrStep s).pen) := by
  intro l
  induction l with
  | nil => intro s h; exact h
  | cons i l ih => intro s h; exact ih (instrStep s i) (instrStep_penInv s i h)

/-- Processing one character from a pen-up boundary preserves the
invariant with the pen up. -/
theorem charStep_penInv (letters : Table) (pad : ℚ) (s : GState) (c : Char)
    (h : PenInv s.out false) (hp : s.pen = false) :
    PenInv ((charStep letters pad s c).out) false := by
  unfold charStep
  cases hl : letters c with
  | none => exact h
  | some L =>
      dsimp only
      split
      · rw [hp]
        exact penInv_push_none s.out false h _ rfl
      · have h2 := foldl_instrStep_penInv L.instructions { s with pen := false } h
        have h3 := penInv_close _ _ Cmd.penUpF h2 rfl
        exact penInv_push_none _ false h3 _ rfl

/-- A whole line preserves the invariant from a pen-up boundary. -/
theorem foldl_charStep_penInv (letters : Table) (pad : ℚ) :
    ∀ (l : List Char) (s : GState), PenInv s.out false → s.pen = false →
      PenInv ((l.foldl (charStep letters pad) s).out) false ∧
        (l.foldl (charStep letters pad) s).pen = false := by
  intro l
  induction l with
  | nil => intro s h hp; exact ⟨h, hp⟩
  | cons c l ih =>
      intro s h hp
      exact ih (charStep letters pad s c)
        (charStep_penInv letters pad s c h hp)
        (charStep_pen_false letters pad s c hp)

/-- The line-break emission preserves the invariant from a pen-up
boundary. -/
theorem lineBreakStep_penInv (ls : ℚ) (s : GState)
    (h : PenInv s.out false) (hp : s.pen = false) :
    PenInv ((lineBreakStep ls s).out) false := by
  have hout : (lineBreakStep ls s).out =
      s.out ++ (if s.pen then [Cmd.penUp] else []) ++
        [Cmd.rapidNL 0 (s.y - ls), Cmd.m04, Cmd.penUp] := rfl
  rw [hout, hp]
  exact penInv_push_downUp _
    (penInv_push_none s.out false h (if false then [Cmd.penUp] else []) rfl)
    [Cmd.rapidNL 0 (s.y - ls), Cmd.m04, Cmd.penUp] rfl

/-- C3: for every input text and glyph table, the pen commands of the
compiled program strictly alternate: there are never two pen-down
commands without an intervening pen-up and never two pen-up commands
without an intervening pen-down — redundant toggles are absent by
construction of the emission loop. -/
theorem textToGcode_pen_alternation (text : String) (letters : Table)
    (ll ls pad : ℚ) :
    List.Chain' (fun a b => a ≠ b)
      (pens (textToGcode text letters ll ls pad)) := by
  unfold textToGcode
  cases hsplit : splitOnChar '\n' text.data with
  | nil => simp [pens]
  | cons l lns =>
      dsimp only
      have h0 := foldl_charStep_penInv letters pad l ⟨[], 0, 0, false⟩ penInv_nil rfl
      have hmain : ∀ (lines : List (List Char)) (s : GState),
          PenInv s.out false → s.pen = false →
          PenInv ((lines.foldl
              (fun s lt => lt.foldl (charStep letters pad) (lineBreakStep ls s)) s).out)
            false := by
        intro lines
        induction lines with
        | nil => intro s h _; exact h
        | cons lt lns ih =>
            intro s h hp
            have hb := lineBreakStep_penInv ls s h hp
            have hbp : (lineBreakStep ls s).pen = false := rfl
            have hline := foldl_charStep_penInv letters pad lt (lineBreakStep ls s) hb hbp
            exact ih _ hline.1 hline.2
      exact (hmain lns _ h0.1 h0.2).1

/-! ### C5: glyph width from the template file -/

theorem trimChars_eq_rdrop (cs : List Char) :
    trimChars cs = List.rdropWhile isWS (List.dropWhile isWS cs) := rfl

/-- Stripping is idempotent. -/
theorem trimChars_idem (cs : List Char) :
    trimChars (trimChars cs) = trimChars cs := by
  rw [trimChars_eq_rdrop, trimChars_eq_rdrop]
  have hd : List.dropWhile isWS (List.rdropWhile isWS (List.dropWhile isWS cs)) =
      List.rdropWhile isWS (List.dropWhile isWS cs) := by
    rw [List.dropWhile_eq_self_iff]
    obtain ⟨t, ht⟩ := List.rdropWhile_prefix isWS (List.dropWhile isWS cs)
    cases hX : List.rdropWhile isWS (List.dropWhile isWS cs) with
    | nil => intro hl; simp at hl
    | cons a r =>
        intro hl
        have ht' : List.dropWhile isWS cs = a :: (r ++ t) := by
          rw [← ht, hX]; simp
        have hne : List.dropWhile isWS cs ≠ [] := by rw [ht']; simp
        have hhead := List.head_dropWhile_not isWS cs hne
        have ha : (List.dropWhile isWS cs).head hne = a := by simp [ht']
        rw [ha] at hhead
        simpa using hhead
  rw [hd, List.rdropWhile_idempotent]

/-- The per-line treatment of `Letter.__init__` (strip, skip blank,
parse) agrees with `Instr.ofLine` applied to the raw line. -/
theorem letterItem_eq_ofLine (l : List Char) :
    (if (trimChars l).isEmpty then none else Instr.ofLine (trimChars l)) =
      Instr.ofLine l := by
  by_cases h : (trimChars l).isEmpty
  · have ht : trimChars l = [] := by simpa using h
    simp only [h, if_pos]
    unfold Instr.ofLine
    rw [ht]
  · simp only [h, if_neg, Bool.false_eq_true, not_false_eq_true]
    unfold Instr.ofLine
    rw [trimChars_idem]

theorem letter_ofString_instructions (data : String) :
    (Letter.ofString data).instructions =
      (splitOnChar '\n' data.data).filterMap Instr.ofLine := by
  unfold Letter.ofString
  dsimp only
  congr 1
  funext l
  exact letterItem_eq_ofLine l

/-- `max(list)` via `foldl`: the result is the seed or an element, is an
upper bound of both. -/
theorem foldl_max_isMax (l : List ℚ) :
    ∀ a : ℚ, (l.foldl max a = a ∨ l.foldl max a ∈ l) ∧
      a ≤ l.foldl max a ∧ ∀ x ∈ l, x ≤ l.foldl max a := by
  induction l with
  | nil => intro a; exact ⟨Or.inl rfl, le_refl a, by simp⟩
  | cons b l ih =>
      intro a
      have h := ih (max a b)
      refine ⟨?_, ?_, ?_⟩
      · rw [List.foldl_cons]
        rcases h.1 with hm | hm
        · rcases max_choice a b with hab | hab
          · exact Or.inl (hm.trans hab)
          · exact Or.inr (by rw [hm, hab]; simp)
        · exact Or.inr (by simp [hm])
      · rw [List.foldl_cons]
        exact le_trans (le_max_left a b) h.2.1
      · intro x hx
        rw [List.foldl_cons]
        rcases List.mem_cons.mp hx with hx | hx
        · subst hx; exact le_trans (le_max_right a x) h.2.1
        · exact h.2.2 x hx

/-- `min(list)` via `foldl`: the result is the seed or an element, is a
lower bound of both. -/
theorem foldl_min_isMin (l : List ℚ) :
    ∀ a : ℚ, (l.foldl min a = a ∨ l.foldl min a ∈ l) ∧
      l.foldl min a ≤ a ∧ ∀ x ∈ l, l.foldl min a ≤ x := by
  induction l with
  | nil => intro a; exact ⟨Or.inl rfl, le_refl a, by simp⟩
  | cons b l ih =>
      intro a
      have h := ih (min a b)
      refine ⟨?_, ?_, ?_⟩
      · rw [List.foldl_cons]
        rcases h.1 with hm | hm
        · rcases min_choice a b with hab | hab
          · exact Or.inl (hm.trans hab)
          · exact Or.inr (by rw [hm, hab]; simp)
        · exact Or.inr (by simp [hm])
      · rw [List.foldl_cons]
        exact le_trans h.2.1 (min_le_left a b)
      · intro x hx
        rw [List.foldl_cons]
        rcases List.mem_cons.mp hx with hx | hx
        · subst hx; exact le_trans h.2.1 (min_le_right a x)
        · exact h.2.2 x hx

/-- C5: for every template file content, the glyph's width is
`max(x) − min(x)` over the x-coordinates of the successfully parsed
instructions (witnessed by a maximal and a minimal element), the width
of an instruction-less glyph is `0`, and a file whose lines all fail to
parse (blank, comment, control marker or malformed) yields an empty
instruction list and width `0`. -/
theorem letter_ofString_width (data : String) :
    ((Letter.ofString data).instructions = [] → (Letter.ofString data).width = 0) ∧
      ((Letter.ofString data).instructions ≠ [] →
        ∃ hi lo,
          hi ∈ (Letter.ofString data).instructions.map Instr.x ∧
          lo ∈ (Letter.ofString data).instructions.map Instr.x ∧
          (∀ a ∈ (Letter.ofString data).instructions.map Instr.x, a ≤ hi) ∧
          (∀ a ∈ (Letter.ofString data).instructions.map Instr.x, lo ≤ a) ∧
          (Letter.ofString data).width = hi - lo) ∧
      ((∀ l ∈ splitOnChar '\n' data.data, Instr.ofLine l = none) →
        (Letter.ofString data).instructions = [] ∧ (Letter.ofString data).width = 0) := by
  have hw : (Letter.ofString data).width =
      match (Letter.ofString data).instructions.map Instr.x with
      | [] => 0
      | p :: ps => ps.foldl max p - ps.foldl min p := rfl
  refine ⟨?_, ?_, ?_⟩
  · intro h
    rw [hw, h]
    rfl
  · intro h
    obtain ⟨i, is, his⟩ : ∃ i is, (Letter.ofString data).instructions = i :: is := by
      cases hh : (Letter.ofString data).instructions with
      | nil => exact absurd hh h
      | cons i is => exact ⟨i, is, rfl⟩
    have hmap : (Letter.ofString data).instructions.map Instr.x =
        i.x :: is.map Instr.x := by rw [his]; rfl
    have hmax := foldl_max_isMax (is.map Instr.x) i.x
    have hmin := foldl_min_isMin (is.map Instr.x) i.x
    refine ⟨(is.map Instr.x).foldl max i.x, (is.map Instr.x).foldl min i.x,
      ?_, ?_, ?_, ?_, ?_⟩
    · rw [hmap]
      rcases hmax.1 with hm | hm
      · rw [hm]; simp
      · simp [hm]
    · rw [hmap]
      rcases hmin.1 with hm | hm
      · rw [hm]; simp
      · simp [hm]
    · intro a ha
      rw [hmap] at ha
      rcases List.mem_cons.mp ha with ha | ha
      · exact ha ▸ hmax.2.1
      · exact hmax.2.2 a ha
    · intro a ha
      rw [hmap] at ha
      rcases List.mem_cons.mp ha with ha | ha
      · exact ha ▸ hmin.2.1
      · exact hmin.2.2 a ha
    · rw [hw, hmap]
  · intro h
    have hnil : (Letter.ofString data).instructions = [] := by
      rw [letter_ofString_instructions]
      exact List.filterMap_eq_nil_iff.mpr h
    exact ⟨hnil, by rw [hw, hnil]; rfl⟩

/-- C5 witness: a file of a comment line, a `%` control line and a
malformed line parses to no instructions and width `0`. -/
theorem letter_ofString_width_witness :
    (∀ l ∈ splitOnChar '\n' "(comment\n%\nbad line".data, Instr.ofLine l = none) ∧
      (Letter.ofString "(comment\n%\nbad line").instructions = [] ∧
        (Letter.ofString "(comment\n%\nbad line").width = 0 :=
  ⟨by decide, (letter_ofString_width "(comment\n%\nbad line").2.2 (by decide)⟩

/-! ### C9: parse / serialize round trip -/

theorem digitChar_isDigit {n : ℕ} (h : n < 10) : (digitChar n).isDigit = true := by
  interval_cases n <;> decide

theorem digitVal_digitChar {n : ℕ} (h : n < 10) : digitVal (digitChar n) = n := by
  interval_cases n <;> decide

/-- A digit character is not a sign, a space, a dot, or whitespace. -/
theorem isDigit_facts {c : Char} (h : c.isDigit = true) :
    c ≠ '+' ∧ c ≠ '-' ∧ c ≠ ' ' ∧ isWS c = false ∧ c ≠ '.' := by
  refine ⟨?_, ?_, ?_, ?_, ?_⟩ <;> first
    | (intro hc; subst hc; exact absurd h (by decide))
    | (by_cases hc : isWS c = false
       · exact hc
       · exfalso
         simp only [Bool.not_eq_false, isWS, Bool.or_eq_true, decide_eq_true_eq] at hc
         rcases hc with ((((h1 | h1) | h1) | h1) | h1) | h1 <;> subst h1 <;>
           exact absurd h (by decide))

theorem parseDigits_concat (l : List Char) (c : Char) :
    parseDigits (l ++ [c]) = 10 * parseDigits l + digitVal c := by
  simp [parseDigits, List.foldl_append]

theorem natDigitsChars_spec :
    ∀ n : ℕ, (∀ c ∈ natDigitsChars n, c.isDigit = true) ∧
      natDigitsChars n ≠ [] ∧ parseDigits (natDigitsChars n) = n := by
  intro n
  induction n using Nat.strong_induction_on with
  | _ n ih =>
      rw [natDigitsChars]
      split
      · next h =>
          refine ⟨?_, by simp, ?_⟩
          · intro c hc
            simp only [List.mem_singleton] at hc
            subst hc
            exact digitChar_isDigit h
          · simp [parseDigits, digitVal_digitChar h]
      · next h =>
          have hlt : n / 10 < n := Nat.div_lt_self (by omega) (by norm_num)
          have ihd := ih (n / 10) hlt
          refine ⟨?_, by simp, ?_⟩
          · intro c hc
            rcases List.mem_append.mp hc with hc | hc
            · exact ihd.1 c hc
            · simp only [List.mem_singleton] at hc
              subst hc
              exact digitChar_isDigit (Nat.mod_lt _ (by norm_num))
          · rw [parseDigits_concat, ihd.2.2,
              digitVal_digitChar (Nat.mod_lt _ (by norm_num))]
            omega

/-- `takeWhile`/`dropWhile` on an all-digit block followed by a dot. -/
theorem takeWhile_digits_dot (dl rest : List Char)
    (h : ∀ c ∈ dl, Char.isDigit c = true) :
    (dl ++ '.' :: rest).takeWhile Char.isDigit = dl ∧
      (dl ++ '.' :: rest).dropWhile Char.isDigit = '.' :: rest := by
  induction dl with
  | nil => exact ⟨by simp [List.takeWhile_cons], by simp [List.dropWhile_cons]⟩
  | cons c dl ih =>
      have hc : Char.isDigit c = true := h c (by simp)
      have hrest : ∀ x ∈ dl, Char.isDigit x = true := fun x hx => h x (by simp [hx])
      have := ih hrest
      exact ⟨by simp [List.takeWhile_cons, hc, this.1],
        by simp [List.dropWhile_cons, hc, this.2]⟩

/-- `parseUnsigned` on the exact shape `fmt2` produces after the sign. -/
theorem parseUnsigned_fmt (k m : ℕ) (hm : m < 100) :
    parseUnsigned (natDigitsChars k ++
        '.' :: [digitChar (m / 10), digitChar (m % 10)]) =
      some ((k : ℚ) + (m : ℚ) / 100) := by
  have hdig := (natDigitsChars_spec k).1
  have hsplit := takeWhile_digits_dot (natDigitsChars k)
    [digitChar (m / 10), digitChar (m % 10)] hdig
  have hd1 : (digitChar (m / 10)).isDigit = true :=
    digitChar_isDigit (by omega)
  have hd2 : (digitChar (m % 10)).isDigit = true :=
    digitChar_isDigit (Nat.mod_lt _ (by norm_num))
  simp only [parseUnsigned, hsplit.1, hsplit.2]
  rw [if_pos (by simp [hd1, hd2])]
  have hfp : parseDigits [digitChar (m / 10), digitChar (m % 10)] = m := by
    have : parseDigits [digitChar (m / 10), digitChar (m % 10)] =
        10 * digitVal (digitChar (m / 10)) + digitVal (digitChar (m % 10)) := by
      simp [parseDigits]
    rw [this, digitVal_digitChar (by omega),
      digitVal_digitChar (Nat.mod_lt _ (by norm_num))]
    omega
  rw [hfp, (natDigitsChars_spec k).2.2]
  norm_num

/-- The rendered shape of `fmt2`, with the `let` unfolded. -/
theorem fmt2_eq (q : ℚ) :
    fmt2 q = (if round (100 * q) < 0 then ['-'] else []) ++
      natDigitsChars ((round (100 * q)).natAbs / 100) ++
      '.' :: [digitChar ((round (100 * q)).natAbs % 100 / 10),
              digitChar ((round (100 * q)).natAbs % 100 % 10)] := rfl

/-- Parsing back a `%.2f` rendering recovers the rounded value. -/
theorem parseFloat_fmt2 (q : ℚ) : parseFloat (fmt2 q) = some (round2 q) := by
  have habs : ∀ A : ℕ, ((A / 100 : ℕ) : ℚ) + ((A % 100 : ℕ) : ℚ) / 100 = (A : ℚ) / 100 := by
    intro A
    have h100 : (A : ℚ) = 100 * ((A / 100 : ℕ) : ℚ) + ((A % 100 : ℕ) : ℚ) := by
      exact_mod_cast (Nat.div_add_mod A 100).symm
    rw [h100]; ring
  rw [fmt2_eq]
  simp only [round2]
  have hm : (round (100 * q)).natAbs % 100 < 100 := Nat.mod_lt _ (by norm_num)
  by_cases hneg : round (100 * q) < 0
  · rw [if_pos hneg, List.singleton_append, List.cons_append]
    simp only [parseFloat]
    rw [if_neg (by decide), if_pos trivial, parseUnsigned_fmt _ _ hm]
    have hA : (((round (100 * q)).natAbs : ℕ) : ℚ) = -((round (100 * q) : ℤ) : ℚ) := by
      rw [Int.cast_natAbs, Int.cast_abs]
      exact abs_of_neg (by exact_mod_cast hneg)
    rw [Option.map_some', habs (round (100 * q)).natAbs, hA]
    congr 1
    ring
  · rw [if_neg hneg, List.nil_append]
    obtain ⟨d, tl, hD⟩ : ∃ d tl, natDigitsChars ((round (100 * q)).natAbs / 100) = d :: tl := by
      cases hD : natDigitsChars ((round (100 * q)).natAbs / 100) with
      | nil => exact absurd hD (natDigitsChars_spec _).2.1
      | cons d tl => exact ⟨d, tl, rfl⟩
    have hd : d.isDigit = true := (natDigitsChars_spec _).1 d (by rw [hD]; simp)
    have hfacts := isDigit_facts hd
    have key : parseFloat (natDigitsChars ((round (100 * q)).natAbs / 100) ++
        '.' :: [digitChar ((round (100 * q)).natAbs % 100 / 10),
                digitChar ((round (100 * q)).natAbs % 100 % 10)]) =
        parseUnsigned (natDigitsChars ((round (100 * q)).natAbs / 100) ++
          '.' :: [digitChar ((round (100 * q)).natAbs % 100 / 10),
                  digitChar ((round (100 * q)).natAbs % 100 % 10)]) := by
      rw [hD, List.cons_append]
      simp only [parseFloat]
      rw [if_neg hfacts.1, if_neg hfacts.2.1, ← List.cons_append, ← hD]
    rw [key, parseUnsigned_fmt _ _ hm]
    have hA : (((round (100 * q)).natAbs : ℕ) : ℚ) = ((round (100 * q) : ℤ) : ℚ) := by
      rw [Int.cast_natAbs, Int.cast_abs]
      exact abs_of_nonneg (by exact_mod_cast not_lt.mp hneg)
    rw [habs (round (100 * q)).natAbs, hA]

/-- Splitting a sep-free block followed by the separator peels off the
block. -/
theorem splitOnChar_append (sep : Char) :
    ∀ (l r : List Char), sep ∉ l →
      splitOnChar sep (l ++ sep :: r) = l :: splitOnChar sep r := by
  intro l
  induction l with
  | nil =>
      intro r _
      simp [splitOnChar]
  | cons c l ih =>
      intro r h
      have hc : ¬ c = sep := fun hh => h (by simp [hh])
      have hl : sep ∉ l := fun hh => h (by simp [hh])
      rw [List.cons_append]
      simp [splitOnChar, hc, ih r hl]

theorem fmt2_mem_ne_space (q : ℚ) : ∀ c ∈ fmt2 q, ¬ c = ' ' := by
  intro c hc
  rw [fmt2_eq] at hc
  rcases List.mem_append.mp hc with hc | hc
  · rcases List.mem_append.mp hc with hc | hc
    · by_cases hneg : round (100 * q) < 0
      · rw [if_pos hneg] at hc
        simp only [List.mem_singleton] at hc
        subst hc
        decide
      · rw [if_neg hneg] at hc
        simp at hc
    · exact (isDigit_facts ((natDigitsChars_spec _).1 c hc)).2.2.1
  · rcases List.mem_cons.mp hc with hc | hc
    · subst hc; decide
    · rcases List.mem_cons.mp hc with hc | hc
      · subst hc
        exact (isDigit_facts (digitChar_isDigit (by omega))).2.2.1
      · simp only [List.mem_singleton] at hc
        subst hc
        exact (isDigit_facts (digitChar_isDigit (Nat.mod_lt _ (by norm_num)))).2.2.1

theorem fmt2_ne_nil (q : ℚ) : fmt2 q ≠ [] := by
  rw [fmt2_eq]
  intro h
  rcases List.append_eq_nil.mp h with ⟨-, h2⟩
  exact List.cons_ne_nil _ _ h2

/-- `fmt2` ends in a digit character. -/
theorem fmt2_concat (q : ℚ) :
    ∃ (B : List Char) (d : ℕ), d < 10 ∧ fmt2 q = B ++ [digitChar d] := by
  refine ⟨(if round (100 * q) < 0 then ['-'] else []) ++
      natDigitsChars ((round (100 * q)).natAbs / 100) ++
      ['.', digitChar ((round (100 * q)).natAbs % 100 / 10)],
    (round (100 * q)).natAbs % 100 % 10, Nat.mod_lt _ (by norm_num), ?_⟩
  rw [fmt2_eq]
  simp [List.append_assoc]

/-- Stripping a string with non-whitespace first and last characters is
the identity. -/
theorem trimChars_of_ends (a : Char) (l : List Char) (b : Char)
    (ha : isWS a = false) (hb : isWS b = false) :
    trimChars ((a :: l) ++ [b]) = (a :: l) ++ [b] := by
  rw [trimChars_eq_rdrop]
  have h1 : List.dropWhile isWS ((a :: l) ++ [b]) = (a :: l) ++ [b] := by
    rw [List.cons_append, List.dropWhile_cons, if_neg (by simp [ha]), ← List.cons_append]
  rw [h1, List.rdropWhile_concat_neg isWS (a :: l) b (by simp [hb])]

theorem trimChars_reprChars (i : Instr) :
    trimChars (Instr.reprChars i) = Instr.reprChars i := by
  obtain ⟨B, d, hd, hB⟩ := fmt2_concat i.y
  have hshape : Instr.reprChars i =
      ('G' :: (i.type.digit :: ' ' :: 'X' :: fmt2 i.x ++ ' ' :: 'Y' :: B)) ++
        [digitChar d] := by
    unfold Instr.reprChars
    rw [hB]
    simp [List.cons_append, List.append_assoc]
  rw [hshape]
  exact trimChars_of_ends 'G' _ (digitChar d) (by decide)
    (isDigit_facts (digitChar_isDigit hd)).2.2.2.1

theorem splitOnChar_reprChars (i : Instr) :
    splitOnChar ' ' (Instr.reprChars i) =
      [['G', i.type.digit], 'X' :: fmt2 i.x, 'Y' :: fmt2 i.y] := by
  have h1 : Instr.reprChars i =
      ['G', i.type.digit] ++ ' ' :: (('X' :: fmt2 i.x) ++ ' ' :: ('Y' :: fmt2 i.y)) := by
    unfold Instr.reprChars
    simp [List.cons_append, List.append_assoc]
  have hxs : (' ' : Char) ∉ ['G', i.type.digit] := by
    cases i.type <;> decide
  have hx : (' ' : Char) ∉ 'X' :: fmt2 i.x := by
    intro h
    rcases List.mem_cons.mp h with h | h
    · exact absurd h (by decide)
    · exact fmt2_mem_ne_space i.x ' ' h rfl
  have hy : (' ' : Char) ∉ 'Y' :: fmt2 i.y := by
    intro h
    rcases List.mem_cons.mp h with h | h
    · exact absurd h (by decide)
    · exact fmt2_mem_ne_space i.y ' ' h rfl
  rw [h1, splitOnChar_append ' ' _ _ hxs,
    splitOnChar_append ' ' _ _ hx, splitOnChar_eq_single ' ' _ hy]

theorem ofLine_reprChars (ty : InstrType) (x y : ℚ) :
    Instr.ofLine (Instr.reprChars ⟨ty, x, y⟩) = some ⟨ty, round2 x, round2 y⟩ := by
  have hsplit := splitOnChar_reprChars ⟨ty, x, y⟩
  have hxe : (fmt2 x).isEmpty = false := by
    simpa [List.isEmpty_iff] using fmt2_ne_nil x
  have hye : (fmt2 y).isEmpty = false := by
    simpa [List.isEmpty_iff] using fmt2_ne_nil y
  unfold Instr.ofLine
  rw [trimChars_reprChars]
  cases hL : Instr.reprChars ⟨ty, x, y⟩ with
  | nil => exact absurd hL (by unfold Instr.reprChars; simp)
  | cons c0 rest =>
      have hG : ('G' : Char) :: (InstrType.digit ty :: ' ' :: 'X' :: fmt2 x ++
          ' ' :: 'Y' :: fmt2 y) = c0 :: rest := by
        rw [← hL]; rfl
      injection hG with hc0 hrest
      subst hc0
      subst hrest
      rw [hL] at hsplit
      cases ty <;>
        simp only [InstrType.digit, List.cons_append] at hsplit <;>
        simp [InstrType.digit, hsplit, hxe, hye, fmt2_ne_nil, parseFloat_fmt2]

/-- How far the rounded hundredth can sit from the value: half a
hundredth. -/
theorem abs_round2_sub_le (q : ℚ) : |round2 q - q| ≤ 1 / 200 := by
  have h := abs_sub_round (100 * q)
  rw [round2]
  have heq : (round (100 * q) : ℚ) / 100 - q = ((round (100 * q) : ℚ) - 100 * q) / 100 := by
    ring
  rw [heq, abs_div, abs_of_pos (show (0 : ℚ) < 100 by norm_num)]
  rw [abs_sub_comm] at h
  linarith

/-- C9: every template line that parses to an Instruction re-serializes
(via `__repr__`, `%.2f` coordinates) to a line that parses back to the
same motion class with each coordinate equal to the original rounded to
two decimal places, which is within half a hundredth of the original. -/
theorem instr_parse_repr_roundtrip (raw : List Char) (i : Instr)
    (_h : Instr.ofLine raw = some i) :
    Instr.ofLine (Instr.reprChars i) = some ⟨i.type, round2 i.x, round2 i.y⟩ ∧
      |round2 i.x - i.x| ≤ 1 / 200 ∧ |round2 i.y - i.y| ≤ 1 / 200 := by
  obtain ⟨ty, x, y⟩ := i
  exact ⟨ofLine_reprChars ty x y, abs_round2_sub_le x, abs_round2_sub_le y⟩

/-- C9 witness: the line `"G0 X3 Y-2"` parses, and its re-serialization
round-trips to the rounded coordinates. -/
theorem instr_parse_repr_roundtrip_witness :
    Instr.ofLine "G0 X3 Y-2".data = some ⟨InstrType.move, 3, -2⟩ ∧
      (Instr.ofLine (Instr.reprChars ⟨InstrType.move, 3, -2⟩) =
          some ⟨InstrType.move, round2 3, round2 (-2)⟩ ∧
        |round2 3 - 3| ≤ 1 / 200 ∧
        |round2 (-2) - -2| ≤ 1 / 200) :=
  ⟨by decide,
   instr_parse_repr_roundtrip "G0 X3 Y-2".data ⟨InstrType.move, 3, -2⟩
     (by decide)⟩

end MG
